import Mathlib

/-!
Verification development for a graph-store core consisting of a structural
merge algorithm (merge.rs), a clone operation (clone.rs) and a deployment
script interpreter (script.rs).  The underlying graph store (vertices,
labeled edges, payloads) is an external collaborator of those three files;
it is modelled here from its specified contract.
-/

set_option maxRecDepth 10000

deriving instance DecidableEq for Except

/-- Payload bytes attached to a vertex (opaque byte sequence). -/
abbrev Hex := List Nat

/-- Modelled from the spec: a vertex owns its outgoing labeled edges
(at most one outgoing edge per distinct label) and an optional payload. -/
structure Vertex where
  edges : List (String × Nat)
  data : Option Hex
deriving DecidableEq

def Vertex.empty : Vertex := ⟨[], none⟩

/-- Modelled from the spec: the graph instance aggregates the vertices
(an association list keyed by integer id) and the id-allocator state
(field `next_v`, as in clone.rs). -/
structure Sodg where
  vertices : List (Nat × Vertex)
  next_v : Nat
deriving DecidableEq

def Sodg.empty : Sodg := ⟨[], 0⟩

/-- Ids of all vertices of the graph. -/
def vertexIds (g : Sodg) : List Nat := g.vertices.map Prod.fst

/-- Modelled from the spec: `max` returns the current maximum vertex id
(0 for an empty graph); used by the script interpreter's allocator. -/
def Sodg.max (g : Sodg) : Nat := (vertexIds g).foldr Nat.max 0

/-- Modelled from the spec: `add` a vertex by explicit id; re-adding an
existing id is an error; the monotonically increasing allocator state is
kept ahead of every explicitly supplied id. -/
def Sodg.add (g : Sodg) (v : Nat) : Except String Sodg :=
  match g.vertices.lookup v with
  | some _ => .error ("Vertex already exists")
  | none => .ok ⟨g.vertices ++ [(v, Vertex.empty)], Nat.max g.next_v (v + 1)⟩

/-- Update one vertex in place, keys and order unchanged. -/
def updVertex (g : Sodg) (v : Nat) (f : Vertex → Vertex) : Sodg :=
  ⟨g.vertices.map (fun p => (p.1, if p.1 = v then f p.2 else p.2)), g.next_v⟩

/-- Retain only the edges whose label differs from the given one. -/
def removeLabel (s : String) : List (String × Nat) → List (String × Nat)
  | [] => []
  | e :: es => if e.1 = s then removeLabel s es else e :: removeLabel s es

/-- First edge carrying the given label, if any. -/
def findLabel (a : String) : List (String × Nat) → Option (String × Nat)
  | [] => none
  | e :: es => if e.1 = a then some e else findLabel a es

/-- All edges carrying the given label, in order. -/
def labelEdges (a : String) : List (String × Nat) → List (String × Nat)
  | [] => []
  | e :: es => if e.1 = a then e :: labelEdges a es else labelEdges a es

/-- Modelled from the spec: `bind` an edge `v1 → v2` under a label; both
vertices must exist; the label is the unique key within the vertex's edge
set, so an edge previously bound under the same label is replaced. -/
def Sodg.bind (g : Sodg) (v1 v2 : Nat) (a : String) : Except String Sodg :=
  match g.vertices.lookup v1, g.vertices.lookup v2 with
  | some _, some _ =>
      .ok (updVertex g v1 (fun ν => ⟨removeLabel a ν.edges ++ [(a, v2)], ν.data⟩))
  | _, _ => .error ("Can not bind, vertex is absent")

/-- Modelled from the spec: `put` attaches a payload to an existing vertex,
idempotent-overwrite (the latest write wins). -/
def Sodg.put (g : Sodg) (v : Nat) (d : Hex) : Except String Sodg :=
  match g.vertices.lookup v with
  | some _ => .ok (updVertex g v (fun ν => ⟨ν.edges, some d⟩))
  | none => .error ("Can not put, vertex is absent")

/-- Modelled from the spec: `is_full` tests payload presence of an existing
vertex, and is an error on a missing vertex. -/
def Sodg.is_full (g : Sodg) (v : Nat) : Except String Bool :=
  match g.vertices.lookup v with
  | some ν => .ok ν.data.isSome
  | none => .error ("Can not check fullness, vertex is absent")

/-- Payload of a vertex, when present. -/
def Sodg.dataOf (g : Sodg) (v : Nat) : Option Hex :=
  match g.vertices.lookup v with
  | some ν => ν.data
  | none => none

/-- Modelled from the spec: `kid` is the per-vertex label lookup; it returns
the child bound under exactly the given label, with auxiliary label info
that this core never inspects. -/
def Sodg.kid (g : Sodg) (v : Nat) (a : String) : Option (Nat × String) :=
  match g.vertices.lookup v with
  | some ν => (findLabel a ν.edges).map (fun e => (e.2, e.1))
  | none => none

/-- Enumerate edges as `(label, disambiguating suffix, target)` triples;
the suffix is modelled from the spec as a value unique to each edge of the
vertex (its position index). -/
def kidsFrom : Nat → List (String × Nat) → List (String × String × Nat)
  | _, [] => []
  | i, (a, tgt) :: rest => (a, Nat.repr i, tgt) :: kidsFrom (i + 1) rest

/-- Modelled from the spec: `kids` lists every outgoing edge of an existing
vertex as a `(label, suffix, target)` triple, and errors on a missing one. -/
def Sodg.kids (g : Sodg) (v : Nat) : Except String (List (String × String × Nat)) :=
  match g.vertices.lookup v with
  | some ν => .ok (kidsFrom 0 ν.edges)
  | none => .error ("Can not list kids, vertex is absent")

/-- Modelled from the spec: the allocator hands out the next free id. -/
def Sodg.next_id (g : Sodg) : Nat × Sodg :=
  (g.next_v, ⟨g.vertices, g.next_v + 1⟩)

/-- Translated from clone.rs: the clone is a new instance made of copies of
every field of the original (vertex set, edge sets, payloads, allocator). -/
def Sodg.clone (g : Sodg) : Sodg :=
  { vertices := g.vertices, next_v := g.next_v }

/-- Label synthesized in merge.rs for a convergence edge:
`format!("{a}/{k}")`. -/
def synthLabel (a k : String) : String := String.mk (a.data ++ '/' :: k.data)

/-- Result of the fueled recursive merge: `none` means the fuel ran out
(the Rust recursion has no such bound; it is proved unreachable below). -/
abbrev MergeRes := Option (Except String (Sodg × List (Nat × Nat)))

/-- Translated from merge.rs `merge_rec`: the loop over the kids of a
source vertex, choosing the destination-side endpoint for each edge and
recursing through `rec`, the merge recursion at the remaining depth. -/
def mergeKidsGo (rec : Sodg → Nat → Nat → List (Nat × Nat) → MergeRes) :
    Sodg → Nat → List (Nat × Nat) → List (String × String × Nat) → MergeRes
  | self, _, mapped, [] => some (.ok (self, mapped))
  | self, left, mapped, (a, k, tgt) :: rest =>
    match mapped.lookup tgt with
    | some t =>
      match Sodg.bind self left t (synthLabel a k) with
      | .error e => some (.error e)
      | .ok self1 =>
        match rec self1 t tgt mapped with
        | none => none
        | some (.error e) => some (.error e)
        | some (.ok (self2, mapped2)) => mergeKidsGo rec self2 left mapped2 rest
    | none =>
      match Sodg.kid self left a with
      | some (t, _) =>
        match rec self t tgt mapped with
        | none => none
        | some (.error e) => some (.error e)
        | some (.ok (self2, mapped2)) => mergeKidsGo rec self2 left mapped2 rest
      | none =>
        let idSelf := Sodg.next_id self
        match Sodg.add idSelf.2 idSelf.1 with
        | .error e => some (.error e)
        | .ok selfA =>
          match Sodg.bind selfA left idSelf.1 a with
          | .error e => some (.error e)
          | .ok selfB =>
            match rec selfB idSelf.1 tgt mapped with
            | none => none
            | some (.error e) => some (.error e)
            | some (.ok (self2, mapped2)) => mergeKidsGo rec self2 left mapped2 rest

/-- Translated from merge.rs `merge_rec`: merge two graphs recursively,
ignoring the nodes already mapped.  `g` is the source being read, `self`
the destination being mutated.  The fuel argument bounds the recursion
depth; `none` means it ran out, which the sufficiency theorem below rules
out at depth one more than the source vertex count. -/
def mergeRec (g : Sodg) : Nat → Sodg → Nat → Nat → List (Nat × Nat) → MergeRes
  | 0, _, _, _, _ => none
  | fuel + 1, self, left, right, mapped =>
    match mapped.lookup right with
    | some _ => some (.ok (self, mapped))
    | none =>
      let mapped1 := (right, left) :: mapped
      match Sodg.is_full g right with
      | .error e => some (.error e)
      | .ok full =>
        let selfPut : Except String Sodg :=
          if full then Sodg.put self left ((Sodg.dataOf g right).getD []) else .ok self
        match selfPut with
        | .error e => some (.error e)
        | .ok self1 =>
          match Sodg.kids g right with
          | .error e => some (.error e)
          | .ok ks =>
            mergeKidsGo (fun s l r m => mergeRec g fuel s l r m) self1 left mapped1 ks

/-- Kids loop at a given remaining depth. -/
def mergeKids (g self : Sodg) (left : Nat) (mapped : List (Nat × Nat))
    (ks : List (String × String × Nat)) (fuel : Nat) : MergeRes :=
  mergeKidsGo (fun s l r m => mergeRec g fuel s l r m) self left mapped ks

/-- Error text of merge.rs for a failed coverage check. -/
def coverageMsg (merged scope : Nat) : String :=
  String.append (String.append (String.append ("Just ") (Nat.repr merged))
    (" vertices merged, out of ")) (String.append (Nat.repr scope) ("; maybe the graph is not a tree?"))

/-- Translated from merge.rs `merge`: run the recursive copy from an empty
visited map, then compare the number of distinct mapped source vertices
with the source's vertex count and fail with a coverage error when they
differ.  The fuel is sufficient (proved below), so the `none` case is
unreachable. -/
def Sodg.merge (self : Sodg) (g : Sodg) (left right : Nat) : Except String Sodg :=
  match mergeRec g (g.vertices.length + 1) self left right [] with
  | none => .error ("fuel exhausted")
  | some (.error e) => .error e
  | some (.ok (self1, mapped)) =>
    if mapped.length ≠ g.vertices.length then
      .error (coverageMsg mapped.length g.vertices.length)
    else
      .ok self1

/-- Translated from script.rs: scanner state for the comment-stripping
regex; outside a comment, a hash sign opens a comment only when a later
newline closes it (the regex needs the newline), and a comment runs
through its closing newline, which is removed with it. -/
def stripGo : Bool → List Char → List Char
  | _, [] => []
  | false, c :: r =>
    if c = '#' ∧ '\n' ∈ r then stripGo true r else c :: stripGo false r
  | true, c :: r => if c = '\n' then stripGo false r else stripGo true r

/-- Translated from script.rs: the comment-stripping regex replaces every
occurrence of a hash sign followed by the rest of its line and the newline
itself with nothing; a hash sign with no later newline matches nothing. -/
def stripComments (l : List Char) : List Char := stripGo false l

/-- Whitespace recognized by trimming. -/
def isWsp (c : Char) : Bool := c == ' ' || c == '\t' || c == '\n' || c == '\r'

/-- Trim whitespace from both ends. -/
def trimChars (l : List Char) : List Char :=
  ((l.dropWhile isWsp).reverse.dropWhile isWsp).reverse

/-- Split a character list on a separator, keeping empty pieces, as Rust
`str::split` does. -/
def splitOnChar (sep : Char) : List Char → List (List Char)
  | [] => [[]]
  | c :: r =>
    let rest := splitOnChar sep r
    if c = sep then [] :: rest
    else
      match rest with
      | [] => [[c]]
      | h :: t => (c :: h) :: t

/-- Translated from script.rs: the script is its immutable text, the
variable table and the configurable root id. -/
structure Script where
  txt : String
  vars : List (String × Nat)
  root : Nat
deriving DecidableEq

/-- Translated from script.rs `from_str`. -/
def Script.from_str (s : String) : Script := ⟨s, [], 0⟩

/-- Translated from script.rs `set_root`. -/
def Script.set_root (s : Script) (v : Nat) : Script := { s with root := v }

/-- Translated from script.rs `commands`: strip comments from the whole
text, split on the semicolon, trim each piece, drop the empty ones. -/
def Script.commands (s : Script) : List String :=
  ((splitOnChar ';' (stripComments s.txt.data)).map
    (fun t => String.mk (trimChars t))).filter (fun t => t ≠ "")

/-- Context wrapping of an error message, as anyhow context layers it. -/
def ctx (c e : String) : String := String.append (String.append c (": ")) e

/-- Translated from script.rs: decimal parse of a vertex id literal with
the error texts of `u32::from_str`. -/
def u32FromStr (s : String) : Except String Nat :=
  let ds := match s.data with
    | '+' :: r => r
    | r => r
  if ds = [] then .error ("invalid digit found in string")
  else if ds.all (fun c => decide (48 ≤ c.toNat ∧ c.toNat ≤ 57)) then
    let n := ds.foldl (fun acc c => acc * 10 + (c.toNat - 48)) 0
    if n < 4294967296 then .ok n
    else .error ("number too large to fit in target type")
  else .error ("invalid digit found in string")

/-- Translated from script.rs `parse`: resolve a vertex-reference token.
A token with the variable sigil resolves through the variable table,
allocating `sodg.max() + 1` on first occurrence; otherwise the token is a
decimal literal, with literal 0 replaced by the configured root.  The
graph is read, never written, and is returned unchanged. -/
def Script.parse (s : Script) (tok : String) (sodg : Sodg) :
    Except String (Nat × Script × Sodg) :=
  match tok.data with
  | [] => .error ("Empty identifier")
  | '$' :: tail =>
    let name := String.mk tail
    match s.vars.lookup name with
    | some v => .ok (v, s, sodg)
    | none =>
      let v := Sodg.max sodg + 1
      .ok (v, { s with vars := (name, v) :: s.vars }, sodg)
  | _ :: _ =>
    match u32FromStr tok with
    | .error e => .error (ctx ("Parsing of \x27" ++ tok ++ "\x27 failed") e)
    | .ok v => .ok ((if v = 0 then s.root else v), s, sodg)

/-- Hexadecimal digit test for payload literals. -/
def isHexDigit (c : Char) : Bool :=
  decide ((48 ≤ c.toNat ∧ c.toNat ≤ 57) ∨ (65 ≤ c.toNat ∧ c.toNat ≤ 70) ∨
    (97 ≤ c.toNat ∧ c.toNat ≤ 102))

/-- Value of a hexadecimal digit. -/
def hexVal (c : Char) : Nat :=
  if 48 ≤ c.toNat ∧ c.toNat ≤ 57 then c.toNat - 48
  else if 65 ≤ c.toNat ∧ c.toNat ≤ 70 then c.toNat - 55
  else c.toNat - 87

/-- Successive digit pairs decoded to bytes in order. -/
def pairsToBytes : List Char → List Nat
  | c1 :: c2 :: rest => (hexVal c1 * 16 + hexVal c2) :: pairsToBytes rest
  | _ => []

/-- Translated from script.rs `parse_data`: strip whitespace and hyphens,
require a non-empty even run of hexadecimal digits, decode byte pairs. -/
def Script.parse_data (s : String) : Except String Hex :=
  let d := s.data.filter (fun c => !(c == ' ' || c == '\t' || c == '\n' || c == '\r' || c == '-'))
  if 2 ≤ d.length ∧ d.length % 2 = 0 ∧ d.all isHexDigit then .ok (pairsToBytes d)
  else .error ("Can\x27t parse data \x27" ++ s ++ "\x27")

/-- Uppercase letter test for the command-name grammar. -/
def isUpper (c : Char) : Bool := decide (65 ≤ c.toNat ∧ c.toNat ≤ 90)

/-- Translated from script.rs: the command regex, one or more uppercase
letters, optional spaces, a parenthesized argument text free of closing
parentheses, and nothing after it. -/
def lineMatch (cmd : String) : Option (String × String) :=
  let p1 := cmd.data.span isUpper
  if p1.1 = [] then none
  else
    match p1.2.dropWhile (fun c => c == ' ') with
    | '(' :: r3 =>
      let p2 := r3.span (fun c => c != ')')
      match p2.2 with
      | [')'] => some (String.mk p1.1, String.mk p2.1)
      | _ => none
    | _ => none

/-- Comma-split, trimmed, non-empty arguments of a command. -/
def argsOf (inner : String) : List String :=
  ((splitOnChar ',' inner.data).map (fun t => String.mk (trimChars t))).filter
    (fun t => t ≠ "")

/-- Rust's message for an out-of-bounds index panic. -/
def oobMsg (len i : Nat) : String :=
  String.append (String.append (String.append ("index out of bounds: the len is ")
    (Nat.repr len)) (" but the index is ")) (Nat.repr i)

/-- Outcome of deploying a single command: success and failure keep the
states mutated so far; an index panic aborts the program. -/
inductive RunRes where
  | ok (s : Script) (g : Sodg)
  | err (e : String) (s : Script) (g : Sodg)
  | panic (e : String)
deriving DecidableEq

/-- Translated from script.rs `deploy_one`: match the command grammar,
split the arguments, dispatch on the command name; argument indexing
panics when the argument list is too short, exactly as Rust indexing. -/
def Script.deploy_one (s : Script) (cmd : String) (sodg : Sodg) : RunRes :=
  match lineMatch cmd with
  | none => .err ("Can\x27t parse \x27" ++ cmd ++ "\x27") s sodg
  | some (nm, inner) =>
    let args := argsOf inner
    if nm = "ADD" then
      match args.get? 0 with
      | none => .panic (oobMsg args.length 0)
      | some a0 =>
        match s.parse a0 sodg with
        | .error e => .err e s sodg
        | .ok (v, s1, g1) =>
          match Sodg.add g1 v with
          | .error e => .err (ctx ("Failed to ADD(" ++ a0 ++ ")") e) s1 g1
          | .ok g2 => .ok s1 g2
    else if nm = "BIND" then
      match args.get? 0 with
      | none => .panic (oobMsg args.length 0)
      | some a0 =>
        match s.parse a0 sodg with
        | .error e => .err e s sodg
        | .ok (v1, s1, g1) =>
          match args.get? 1 with
          | none => .panic (oobMsg args.length 1)
          | some a1 =>
            match s1.parse a1 g1 with
            | .error e => .err e s1 g1
            | .ok (v2, s2, g2) =>
              match args.get? 2 with
              | none => .panic (oobMsg args.length 2)
              | some a2 =>
                match Sodg.bind g2 v1 v2 a2 with
                | .error e =>
                  .err (ctx ("Failed to BIND(" ++ a0 ++ ", " ++ a1 ++ ", " ++ a2 ++ ")") e) s2 g2
                | .ok g3 => .ok s2 g3
    else if nm = "PUT" then
      match args.get? 0 with
      | none => .panic (oobMsg args.length 0)
      | some a0 =>
        match s.parse a0 sodg with
        | .error e => .err e s sodg
        | .ok (v, s1, g1) =>
          match args.get? 1 with
          | none => .panic (oobMsg args.length 1)
          | some a1 =>
            match Script.parse_data a1 with
            | .error e => .err e s1 g1
            | .ok d =>
              match Sodg.put g1 v d with
              | .error e => .err (ctx ("Failed to DATA(" ++ a0 ++ ")") e) s1 g1
              | .ok g2 => .ok s1 g2
    else .err ("Unknown command: " ++ nm) s sodg

/-- Error text of script.rs `deploy_to` around a failed command: note the
0-based `pos` counter is interpolated as is. -/
def failureAt (pos : Nat) (cmd : String) : String :=
  String.append (String.append ("Failure at the command no.") (Nat.repr pos))
    (": \x27" ++ cmd ++ "\x27")

/-- Outcome of deploying a whole script. -/
inductive DeployRes where
  | ok (n : Nat) (s : Script) (g : Sodg)
  | err (e : String) (s : Script) (g : Sodg)
  | panic (e : String)
deriving DecidableEq

/-- Translated from script.rs `deploy_to`: run the commands strictly in
order, stop at the first failure wrapping it with the positional context,
return the number of applied commands on success. -/
def deployLoop : Script → Sodg → List String → Nat → DeployRes
  | s, g, [], pos => .ok pos s g
  | s, g, cmd :: rest, pos =>
    match Script.deploy_one s cmd g with
    | .panic e => .panic e
    | .err e s1 g1 => .err (ctx (failureAt pos cmd) e) s1 g1
    | .ok s1 g1 => deployLoop s1 g1 rest (pos + 1)

/-- Translated from script.rs `deploy_to`: deploy the entire script. -/
def Script.deploy_to (s : Script) (g : Sodg) : DeployRes :=
  deployLoop s g s.commands 0

/-! Basic helper lemmas about the store model. -/

theorem mkData (s : String) : String.mk s.data = s := rfl

theorem mem_le_foldr_max (l : List Nat) (v : Nat) (h : v ∈ l) :
    v ≤ l.foldr Nat.max 0 := by
  induction l with
  | nil => cases h
  | cons a t ih =>
    cases h with
    | head => exact Nat.le_max_left _ _
    | tail _ hm => exact Nat.le_trans (ih hm) (Nat.le_max_right _ _)

theorem max_succ_not_mem (g : Sodg) : (Sodg.max g + 1) ∉ vertexIds g := by
  intro h
  have := mem_le_foldr_max (vertexIds g) _ h
  exact Nat.not_succ_le_self _ this

theorem lookup_map_if (l : List (Nat × Vertex)) (v w : Nat) (f : Vertex → Vertex) :
    (l.map (fun p => (p.1, if p.1 = v then f p.2 else p.2))).lookup w =
      if w = v then (l.lookup w).map f else l.lookup w := by
  induction l with
  | nil => by_cases h : w = v <;> simp [List.lookup, h]
  | cons p t ih =>
    obtain ⟨pk, pv⟩ := p
    by_cases h2 : w = pk
    · subst h2
      by_cases h1 : w = v <;> simp [List.lookup, h1]
    · have hbeq : (w == pk) = false := beq_eq_false_iff_ne.mpr h2
      simp only [List.map_cons, List.lookup, hbeq]
      exact ih

theorem updVertex_lookup (g : Sodg) (v w : Nat) (f : Vertex → Vertex) :
    (updVertex g v f).vertices.lookup w =
      if w = v then (g.vertices.lookup w).map f else g.vertices.lookup w :=
  lookup_map_if g.vertices v w f

theorem updVertex_ids (g : Sodg) (v : Nat) (f : Vertex → Vertex) :
    vertexIds (updVertex g v f) = vertexIds g := by
  unfold vertexIds updVertex
  simp [List.map_map, Function.comp]

theorem find_append (p : (String × Nat) → Bool) (l1 l2 : List (String × Nat)) :
    (l1 ++ l2).find? p = ((l1.find? p).rec (l2.find? p) fun x => some x) := by
  induction l1 with
  | nil => simp
  | cons x t ih =>
    by_cases h : p x = true
    · simp [List.find?, h]
    · have h2 : p x = false := by revert h; cases p x <;> simp
      simp [List.find?, h2, ih]

/-- C8: the clone of a graph equals it field by field: same vertex set,
same edge sets, same payloads, same allocator state; it exists for every
graph (no error path), and in this value semantics mutating the copy
produces a new value while the original keeps its vertex count. -/
theorem clone_spec (g : Sodg) :
    Sodg.clone g = g ∧
    (Sodg.clone g).vertices = g.vertices ∧
    (Sodg.clone g).next_v = g.next_v ∧
    (∀ v g2, Sodg.add (Sodg.clone g) v = .ok g2 →
      g2.vertices.length = g.vertices.length + 1 ∧
      (Sodg.clone g).vertices.length = g.vertices.length) ∧
    (∀ v g2, Sodg.add g v = .ok g2 →
      (Sodg.clone g).vertices.length = g.vertices.length) := by
  refine ⟨rfl, rfl, rfl, ?_, ?_⟩
  · intro v g2 h
    unfold Sodg.add at h
    cases hl : (Sodg.clone g).vertices.lookup v with
    | some p => rw [hl] at h; cases h
    | none =>
      rw [hl] at h
      cases h
      exact ⟨by simp [Sodg.clone], rfl⟩
  · intro v g2 _
    rfl

theorem clone_spec_witness :
    Sodg.add (Sodg.clone Sodg.empty) 5 = .ok ⟨[(5, Vertex.empty)], 6⟩ ∧
    (⟨[(5, Vertex.empty)], 6⟩ : Sodg).vertices.length = Sodg.empty.vertices.length + 1 := by
  refine ⟨by decide, ?_⟩
  exact ((clone_spec Sodg.empty).2.2.2.1 5 ⟨[(5, Vertex.empty)], 6⟩ (by decide)).1

/-- Destination of the label-dedup scenario: vertices 0 and 1 with an edge
0 → 1 labeled foo, built through the store operations. -/
def destC9 : Except String Sodg :=
  Except.bind (Sodg.add Sodg.empty 0) fun g =>
  Except.bind (Sodg.add g 1) fun g => Sodg.bind g 0 1 "foo"

/-- Source of the label-dedup scenario: 0 → 1 labeled foo plus 1 → 2
labeled bar. -/
def srcC9 : Except String Sodg :=
  Except.bind (Sodg.add Sodg.empty 0) fun g =>
  Except.bind (Sodg.add g 1) fun g =>
  Except.bind (Sodg.bind g 0 1 "foo") fun g =>
  Except.bind (Sodg.add g 2) fun g => Sodg.bind g 1 2 "bar"

/-- Merge of the label-dedup scenario at roots 0, 0. -/
def mergedC9 : Except String Sodg :=
  Except.bind destC9 fun d => Except.bind srcC9 fun s => Sodg.merge d s 0 0

/-- C9: merging the two-edge source into the one-edge destination at root
0 succeeds with exactly 3 vertices, and the child of 0 under foo is still
vertex 1: the existing labeled child is reused, not duplicated. -/
theorem merge_dedup_scenario :
    mergedC9.map (fun h => (h.vertices.length, Sodg.kid h 0 "foo")) =
      .ok (3, some (1, "foo")) := by decide

/-- C10: resolving a fresh variable token records the current maximum
vertex id plus one in the variable table, returns the graph unchanged,
refers to a vertex that does not exist yet, and a second distinct fresh
variable resolved with no intervening vertex addition gets the same id. -/
theorem parse_var_frame (s : Script) (g : Sodg) (tok1 tok2 name1 name2 : String)
    (ht1 : tok1.data = '$' :: name1.data)
    (ht2 : tok2.data = '$' :: name2.data)
    (h1 : s.vars.lookup name1 = none)
    (h2 : s.vars.lookup name2 = none)
    (hne : name1 ≠ name2) :
    Script.parse s tok1 g =
      .ok (Sodg.max g + 1, { s with vars := (name1, Sodg.max g + 1) :: s.vars }, g) ∧
    (Sodg.max g + 1) ∉ vertexIds g ∧
    Script.parse { s with vars := (name1, Sodg.max g + 1) :: s.vars } tok2 g =
      .ok (Sodg.max g + 1,
        { s with vars := (name2, Sodg.max g + 1) :: (name1, Sodg.max g + 1) :: s.vars }, g) := by
  have hb : (name2 == name1) = false := beq_eq_false_iff_ne.mpr (Ne.symm hne)
  refine ⟨?_, max_succ_not_mem g, ?_⟩
  · unfold Script.parse
    rw [ht1]
    simp [mkData, h1]
  · unfold Script.parse
    rw [ht2]
    simp [mkData, List.lookup, hb, h2]

theorem parse_var_frame_witness :
    Script.parse (Script.from_str "") "$a" (⟨[(0, Vertex.empty), (5, Vertex.empty)], 6⟩ : Sodg) =
      .ok (6, ⟨"", [("a", 6)], 0⟩, ⟨[(0, Vertex.empty), (5, Vertex.empty)], 6⟩) ∧
    (6 : Nat) ∉ vertexIds (⟨[(0, Vertex.empty), (5, Vertex.empty)], 6⟩ : Sodg) ∧
    Script.parse (⟨"", [("a", 6)], 0⟩ : Script) "$b"
        (⟨[(0, Vertex.empty), (5, Vertex.empty)], 6⟩ : Sodg) =
      .ok (6, ⟨"", [("b", 6), ("a", 6)], 0⟩, ⟨[(0, Vertex.empty), (5, Vertex.empty)], 6⟩) := by
  have T := parse_var_frame (Script.from_str "") (⟨[(0, Vertex.empty), (5, Vertex.empty)], 6⟩ : Sodg)
    ("$a") ("$b") ("a") ("b") (by decide) (by decide) (by decide) (by decide) (by decide)
  exact T

/-- C4: the code reports the 0-based loop counter in the failure context:
deploying a script whose second command is malformed stops right there,
leaves command 1 applied to the graph, and reports the raw text of the
failing command, but numbers it 1, not 2. -/
theorem deploy_reports_zero_based :
    Script.deploy_to (Script.from_str "ADD(0); ADD(x)") Sodg.empty =
      .err ("Failure at the command no.1: \x27ADD(x)\x27: Parsing of \x27x\x27 failed: invalid digit found in string")
        ⟨"ADD(0); ADD(x)", [], 0⟩ ⟨[(0, Vertex.empty)], 1⟩ := by decide

/-! Lemmas about comment stripping, for the command-splitting claim. -/

theorem stripGo_comment_body (rest : List Char) :
    ∀ mid : List Char, '\n' ∉ mid →
      stripGo true (mid ++ '\n' :: rest) = stripGo false rest := by
  intro mid
  induction mid with
  | nil => intro _; simp [stripGo]
  | cons c cs ih =>
    intro h
    have hc : c ≠ '\n' := fun hh => h (hh ▸ List.mem_cons_self c cs)
    have hcs : '\n' ∉ cs := fun hh => h (List.mem_cons_of_mem c hh)
    simp only [List.cons_append, stripGo, if_neg hc]
    exact ih hcs

theorem stripGo_no_nl (l : List Char) (h : '\n' ∉ l) : stripGo false l = l := by
  induction l with
  | nil => rfl
  | cons c cs ih =>
    have hcs : '\n' ∉ cs := fun hh => h (List.mem_cons_of_mem c hh)
    have hcond : ¬ (c = '#' ∧ '\n' ∈ cs) := fun hh => hcs hh.2
    simp only [stripGo, if_neg hcond]
    rw [ih hcs]

/-- C7 (corrected): a comment is removed from its hash sign through its
terminating newline inclusive; a hash sign on a final line with no later
newline is left in place; the remainder is split on semicolons, trimmed,
and empty commands are dropped. -/
theorem commands_comment_semantics (pre mid rest : List Char) (t : String)
    (hpre : '#' ∉ pre) (hmid : '\n' ∉ mid) :
    stripComments (pre ++ '#' :: mid ++ '\n' :: rest) = pre ++ stripComments rest ∧
    stripComments (pre ++ '#' :: mid) = pre ++ '#' :: mid ∧
    Script.commands (Script.from_str t) =
      ((splitOnChar ';' (stripComments t.data)).map (fun c => String.mk (trimChars c))).filter
        (fun c => c ≠ "") := by
  refine ⟨?_, ?_, rfl⟩
  · induction pre with
    | nil =>
      have hnl : '\n' ∈ (mid ++ '\n' :: rest) :=
        List.mem_append_right mid (List.mem_cons_self _ _)
      have hcond : ('#' : Char) = '#' ∧ '\n' ∈ (mid ++ '\n' :: rest) := ⟨rfl, hnl⟩
      show stripGo false ('#' :: (mid ++ '\n' :: rest)) = stripGo false rest
      rw [stripGo, if_pos hcond]
      exact stripGo_comment_body rest mid hmid
    | cons c cs ih =>
      have hc : c ≠ '#' := fun hh => hpre (hh ▸ List.mem_cons_self c cs)
      have hcs : '#' ∉ cs := fun hh => hpre (List.mem_cons_of_mem c hh)
      have hcond : ¬ (c = '#' ∧ '\n' ∈ (cs ++ '#' :: mid ++ '\n' :: rest)) :=
        fun hh => hc hh.1
      show stripGo false (c :: (cs ++ '#' :: mid ++ '\n' :: rest)) =
        c :: (cs ++ stripGo false rest)
      rw [stripGo, if_neg hcond]
      exact congrArg (c :: ·) (ih hcs)
  · induction pre with
    | nil =>
      have hcond : ¬ (('#' : Char) = '#' ∧ '\n' ∈ mid) := fun hh => hmid hh.2
      show stripGo false ('#' :: mid) = '#' :: mid
      rw [stripGo, if_neg hcond]
      rw [stripGo_no_nl mid hmid]
    | cons c cs ih =>
      have hc : c ≠ '#' := fun hh => hpre (hh ▸ List.mem_cons_self c cs)
      have hcs : '#' ∉ cs := fun hh => hpre (List.mem_cons_of_mem c hh)
      have hcond : ¬ (c = '#' ∧ '\n' ∈ (cs ++ '#' :: mid)) := fun hh => hc hh.1
      show stripGo false (c :: (cs ++ '#' :: mid)) = c :: (cs ++ '#' :: mid)
      rw [stripGo, if_neg hcond]
      exact congrArg (c :: ·) (ih hcs)

theorem commands_comment_semantics_witness :
    stripComments (['A'] ++ '#' :: ['x'] ++ '\n' :: ['B']) = ['A'] ++ stripComments ['B'] ∧
    stripComments (['A'] ++ '#' :: ['x']) = ['A'] ++ '#' :: ['x'] := by
  have T := commands_comment_semantics (['A']) (['x']) (['B']) ("") (by decide) (by decide)
  exact ⟨T.1, T.2.1⟩

/-- C7 counterexample: a comment on a final line not terminated by a
newline is not stripped, so the claim that stripping covers the whole
text including the final line fails on this input. -/
theorem commands_final_comment_kept :
    Script.commands (Script.from_str "ADD(0)#x") = ["ADD(0)#x"] ∧
    Script.commands (Script.from_str "ADD(0)#x") ≠ ["ADD(0)"] := by decide

/-- C6 counterexample: a recognized command with an empty argument list
passes the grammar, so the interpreter indexes into an empty argument
vector and panics instead of returning an error result. -/
theorem deploy_empty_args_panics :
    Script.deploy_to (Script.from_str "ADD()") Sodg.empty =
      .panic ("index out of bounds: the len is 0 but the index is 0") := by decide

/-- C6 (corrected): a command that misses the grammar yields the parse
error carrying the command text, and a grammatical but unknown command
name yields the unknown-command error naming it; but too few arguments to
a recognized command panics, as shown by the counterexample. -/
theorem deploy_one_parse_errors (s : Script) (g : Sodg) (cmd : String) :
    (lineMatch cmd = none →
      Script.deploy_one s cmd g = .err ("Can\x27t parse \x27" ++ cmd ++ "\x27") s g) ∧
    (∀ nm inner, lineMatch cmd = some (nm, inner) →
      nm ≠ "ADD" → nm ≠ "BIND" → nm ≠ "PUT" →
      Script.deploy_one s cmd g = .err ("Unknown command: " ++ nm) s g) := by
  constructor
  · intro h
    simp [Script.deploy_one, h]
  · intro nm inner h hA hB hP
    simp [Script.deploy_one, h, hA, hB, hP]

theorem deploy_one_parse_errors_witness :
    Script.deploy_one (Script.from_str "") ("ADDX") Sodg.empty =
      .err ("Can\x27t parse \x27" ++ "ADDX" ++ "\x27") (Script.from_str "") Sodg.empty ∧
    Script.deploy_one (Script.from_str "") ("FOO(1)") Sodg.empty =
      .err ("Unknown command: " ++ "FOO") (Script.from_str "") Sodg.empty := by
  refine ⟨(deploy_one_parse_errors (Script.from_str "") Sodg.empty ("ADDX")).1 (by decide), ?_⟩
  exact (deploy_one_parse_errors (Script.from_str "") Sodg.empty ("FOO(1)")).2
    ("FOO") ("1") (by decide) (by decide) (by decide) (by decide)

/-! Lemmas about the synthesized convergence label. -/

theorem synthLabel_ne (a k : String) : synthLabel a k ≠ a := by
  intro h
  have hd := congrArg (fun s => s.data.length) h
  simp [synthLabel] at hd

theorem find_bind_edges (es : List (String × Nat)) (s : String) (t : Nat) (a : String)
    (hne : a ≠ s) :
    findLabel a (removeLabel s es ++ [(s, t)]) = findLabel a es := by
  induction es with
  | nil =>
    show findLabel a [(s, t)] = none
    rw [findLabel, if_neg (fun h : s = a => hne h.symm)]
    rfl
  | cons e es ih =>
    by_cases hs : e.1 = s
    · have ha : ¬ e.1 = a := fun h => hne (h ▸ hs)
      rw [removeLabel, if_pos hs]
      conv_rhs => rw [findLabel, if_neg ha]
      exact ih
    · rw [removeLabel, if_neg hs, List.cons_append, findLabel]
      conv_rhs => rw [findLabel]
      by_cases ha : e.1 = a
      · rw [if_pos ha, if_pos ha]
      · rw [if_neg ha, if_neg ha]
        exact ih

theorem find_bind_self (es : List (String × Nat)) (s : String) (t : Nat) :
    findLabel s (removeLabel s es ++ [(s, t)]) = some (s, t) := by
  induction es with
  | nil =>
    show findLabel s [(s, t)] = some (s, t)
    rw [findLabel, if_pos rfl]
  | cons e es ih =>
    by_cases hs : e.1 = s
    · rw [removeLabel, if_pos hs]
      exact ih
    · rw [removeLabel, if_neg hs, List.cons_append, findLabel, if_neg hs]
      exact ih

theorem label_bind_edges (es : List (String × Nat)) (s : String) (t : Nat) (a : String)
    (hne : a ≠ s) :
    labelEdges a (removeLabel s es ++ [(s, t)]) = labelEdges a es := by
  induction es with
  | nil =>
    show labelEdges a [(s, t)] = []
    rw [labelEdges, if_neg (fun h : s = a => hne h.symm)]
    rfl
  | cons e es ih =>
    by_cases hs : e.1 = s
    · have ha : ¬ e.1 = a := fun h => hne (h ▸ hs)
      rw [removeLabel, if_pos hs]
      conv_rhs => rw [labelEdges, if_neg ha]
      exact ih
    · rw [removeLabel, if_neg hs, List.cons_append, labelEdges]
      conv_rhs => rw [labelEdges]
      by_cases ha : e.1 = a
      · rw [if_pos ha, if_pos ha, ih]
      · rw [if_neg ha, if_neg ha]
        exact ih

/-- C5: when a source edge converges onto an already-mapped target, the
engine binds left to the mapped destination vertex under the synthesized
label and continues with the loop; the synthesized label differs from the
plain label, so every pre-existing edge labeled with the plain label on
left keeps its place and target, while the convergence edge is now
present under the synthesized label. -/
theorem synth_no_collision (g self : Sodg) (left t tgt : Nat) (m : List (Nat × Nat))
    (a k : String) (rest : List (String × String × Nat)) (fuel : Nat) (s1 : Sodg)
    (hm : m.lookup tgt = some t)
    (hb : Sodg.bind self left t (synthLabel a k) = .ok s1) :
    mergeKids g self left m ((a, k, tgt) :: rest) (fuel + 1) =
      mergeKids g s1 left m rest (fuel + 1) ∧
    Sodg.kid s1 left a = Sodg.kid self left a ∧
    (∀ ν ν1, self.vertices.lookup left = some ν → s1.vertices.lookup left = some ν1 →
      labelEdges a ν1.edges = labelEdges a ν.edges) ∧
    Sodg.kid s1 left (synthLabel a k) = some (t, synthLabel a k) := by
  have hLe : ∃ ν0, self.vertices.lookup left = some ν0 := by
    cases h : self.vertices.lookup left with
    | none => unfold Sodg.bind at hb; simp [h] at hb
    | some ν0 => exact ⟨ν0, rfl⟩
  obtain ⟨ν0, hL⟩ := hLe
  have hTe : ∃ ν2, self.vertices.lookup t = some ν2 := by
    cases h : self.vertices.lookup t with
    | none => unfold Sodg.bind at hb; simp [hL, h] at hb
    | some ν2 => exact ⟨ν2, rfl⟩
  obtain ⟨ν2, hT⟩ := hTe
  have hs1 : s1 = updVertex self left
      (fun ν => ⟨removeLabel (synthLabel a k) ν.edges ++ [(synthLabel a k, t)], ν.data⟩) := by
    unfold Sodg.bind at hb
    simp only [hL, hT] at hb
    exact (Except.ok.inj hb).symm
  have hlook : s1.vertices.lookup left =
      some ⟨removeLabel (synthLabel a k) ν0.edges ++ [(synthLabel a k, t)], ν0.data⟩ := by
    rw [hs1, updVertex_lookup, if_pos rfl, hL]
    rfl
  refine ⟨?_, ?_, ?_, ?_⟩
  · simp only [mergeKids, mergeKidsGo, hm, hb, mergeRec]
  · have h1 : Sodg.kid s1 left a =
        ((findLabel a (removeLabel (synthLabel a k) ν0.edges ++
          [(synthLabel a k, t)])).map (fun e => (e.2, e.1))) := by
      simp only [Sodg.kid, hlook]
    have h2 : Sodg.kid self left a =
        ((findLabel a ν0.edges).map (fun e => (e.2, e.1))) := by
      simp only [Sodg.kid, hL]
    rw [h1, h2, find_bind_edges ν0.edges (synthLabel a k) t a (Ne.symm (synthLabel_ne a k))]
  · intro ν ν1 hν hν1
    have hνeq : ν = ν0 := Option.some.inj (hν.symm.trans hL)
    have hν1eq : ν1 = ⟨removeLabel (synthLabel a k) ν0.edges ++
        [(synthLabel a k, t)], ν0.data⟩ := Option.some.inj (hν1.symm.trans hlook)
    rw [hνeq, hν1eq]
    exact label_bind_edges ν0.edges (synthLabel a k) t a (Ne.symm (synthLabel_ne a k))
  · have h3 : Sodg.kid s1 left (synthLabel a k) =
        ((findLabel (synthLabel a k) (removeLabel (synthLabel a k) ν0.edges ++
          [(synthLabel a k, t)])).map (fun e => (e.2, e.1))) := by
      simp only [Sodg.kid, hlook]
    rw [h3, find_bind_self]
    rfl

/-- Destination state of the convergence-bind scenario used as witness. -/
def selfW : Sodg := ⟨[(0, ⟨[("foo", 7)], none⟩), (1, ⟨[], none⟩)], 2⟩

/-- Destination state after the convergence bind. -/
def s1W : Sodg := ⟨[(0, ⟨[("foo", 7), ("foo/0", 1)], none⟩), (1, ⟨[], none⟩)], 2⟩

theorem synth_no_collision_witness :
    mergeKids Sodg.empty selfW 0 [(2, 1)] [("foo", "0", 2)] 4 =
      mergeKids Sodg.empty s1W 0 [(2, 1)] [] 4 ∧
    Sodg.kid s1W 0 "foo" = Sodg.kid selfW 0 "foo" ∧
    Sodg.kid s1W 0 (synthLabel "foo" "0") = some (1, synthLabel "foo" "0") := by
  have T := synth_no_collision Sodg.empty selfW 0 1 2 [(2, 1)] ("foo") ("0") [] 3 s1W
    (by decide) (by decide)
  exact ⟨T.1, T.2.1, T.2.2.2⟩

/-! Infrastructure for reasoning about the recursive merge. -/

/-- Membership of a source vertex in the visited map. -/
def kIn (v : Nat) (m : List (Nat × Nat)) : Bool := (m.lookup v).isSome

/-- Number of source vertices not yet in the visited map. -/
def missing (g : Sodg) (m : List (Nat × Nat)) : Nat :=
  (vertexIds g).countP (fun v => !(kIn v m))

/-- Targets of the outgoing edges of a vertex. -/
def targetsOf (g : Sodg) (v : Nat) : List Nat :=
  match g.vertices.lookup v with
  | some ν => ν.edges.map Prod.snd
  | none => []

/-- Reachability from a root by following outgoing edges of the graph. -/
inductive Reach (g : Sodg) (r : Nat) : Nat → Prop where
  | refl : Reach g r r
  | step {u w : Nat} {ν : Vertex} {a : String} (h1 : Reach g r u)
      (h2 : g.vertices.lookup u = some ν) (h3 : (a, w) ∈ ν.edges) : Reach g r w

/-- Every vertex of the graph is reachable from the root. -/
def ReachesAll (g : Sodg) (r : Nat) : Prop := ∀ v ∈ vertexIds g, Reach g r v

theorem reach_trans (g : Sodg) (r u v : Nat) (h1 : Reach g r u) (h2 : Reach g u v) :
    Reach g r v := by
  induction h2 with
  | refl => exact h1
  | step hr hl he ih => exact Reach.step ih hl he

theorem kIn_nil (v : Nat) : kIn v [] = false := rfl

theorem kIn_cons_self (r x : Nat) (m : List (Nat × Nat)) : kIn r ((r, x) :: m) = true := by
  simp [kIn, List.lookup]

theorem kIn_cons_of (v r x : Nat) (m : List (Nat × Nat)) (h : kIn v m = true) :
    kIn v ((r, x) :: m) = true := by
  by_cases hv : v = r
  · subst hv; exact kIn_cons_self v x m
  · simpa [kIn, List.lookup, beq_eq_false_iff_ne.mpr hv] using h

theorem kIn_cons_ne (v r x : Nat) (m : List (Nat × Nat)) (h : v ≠ r) :
    kIn v ((r, x) :: m) = kIn v m := by
  simp [kIn, List.lookup, beq_eq_false_iff_ne.mpr h]

theorem kIn_cons_elim (v r x : Nat) (m : List (Nat × Nat))
    (h : kIn v ((r, x) :: m) = true) : v = r ∨ kIn v m = true := by
  by_cases hv : v = r
  · exact Or.inl hv
  · exact Or.inr (by rwa [kIn_cons_ne v r x m hv] at h)

theorem lookup_mem {β : Type} (m : List (Nat × β)) (a : Nat) (b : β)
    (h : m.lookup a = some b) : (a, b) ∈ m := by
  induction m with
  | nil => simp [List.lookup] at h
  | cons p t ih =>
    obtain ⟨k, c⟩ := p
    by_cases hp : a = k
    · subst hp
      simp [List.lookup] at h
      subst h
      exact List.mem_cons_self _ _
    · simp only [List.lookup, beq_eq_false_iff_ne.mpr hp] at h
      exact List.mem_cons_of_mem _ (ih h)

theorem lookup_some_of_mem_keys {β : Type} (l : List (Nat × β)) (v : Nat)
    (h : v ∈ l.map Prod.fst) : ∃ b, l.lookup v = some b := by
  induction l with
  | nil => simp at h
  | cons p t ih =>
    obtain ⟨k, c⟩ := p
    by_cases hv : v = k
    · subst hv
      exact ⟨c, by simp [List.lookup]⟩
    · simp only [List.map_cons, List.mem_cons] at h
      cases h with
      | inl hh => exact absurd hh hv
      | inr hh =>
        obtain ⟨b, hb⟩ := ih hh
        exact ⟨b, by simpa [List.lookup, beq_eq_false_iff_ne.mpr hv] using hb⟩

theorem mem_keys_of_lookup {β : Type} (l : List (Nat × β)) (v : Nat) (b : β)
    (h : l.lookup v = some b) : v ∈ l.map Prod.fst :=
  List.mem_map_of_mem Prod.fst (lookup_mem l v b h)

theorem kIn_iff_keys (v : Nat) (m : List (Nat × Nat)) :
    kIn v m = true ↔ v ∈ m.map Prod.fst := by
  induction m with
  | nil => simp [kIn, List.lookup]
  | cons p t ih =>
    obtain ⟨k, c⟩ := p
    by_cases hv : v = k
    · subst hv
      simp [kIn_cons_self]
    · rw [kIn_cons_ne v k c t hv]
      simp only [List.map_cons, List.mem_cons]
      rw [ih]
      constructor
      · exact Or.inr
      · intro h
        cases h with
        | inl hh => exact absurd hh hv
        | inr hh => exact hh

theorem kIn_false_not_mem (v : Nat) (m : List (Nat × Nat)) (h : kIn v m = false) :
    v ∉ m.map Prod.fst := by
  intro hmem
  rw [← kIn_iff_keys] at hmem
  rw [h] at hmem
  cases hmem

theorem kidsFrom_mem (es : List (String × Nat)) :
    ∀ i e, e ∈ kidsFrom i es → (e.1, e.2.2) ∈ es := by
  induction es with
  | nil => intro i e h; simp [kidsFrom] at h
  | cons p t ih =>
    obtain ⟨a, tgt⟩ := p
    intro i e h
    rw [kidsFrom] at h
    cases h with
    | head => exact List.mem_cons_self _ _
    | tail _ hh => exact List.mem_cons_of_mem _ (ih (i + 1) e hh)

theorem kidsFrom_targets (es : List (String × Nat)) :
    ∀ i, (kidsFrom i es).map (fun e => e.2.2) = es.map Prod.snd := by
  induction es with
  | nil => intro i; rfl
  | cons p t ih =>
    obtain ⟨a, tgt⟩ := p
    intro i
    rw [kidsFrom]
    simp only [List.map_cons]
    rw [ih (i + 1)]

theorem countP_imp (l : List Nat) (p q : Nat → Bool) (h : ∀ v, p v = true → q v = true) :
    l.countP p ≤ l.countP q := by
  induction l with
  | nil => simp [List.countP_nil]
  | cons a t ih =>
    rw [List.countP_cons, List.countP_cons]
    by_cases hp : p a = true
    · rw [if_pos hp, if_pos (h a hp)]
      omega
    · by_cases hq : q a = true
      · rw [if_neg hp, if_pos hq]
        omega
      · rw [if_neg hp, if_neg hq]
        omega

theorem missing_mono (g : Sodg) (m m2 : List (Nat × Nat))
    (h : ∀ v, kIn v m = true → kIn v m2 = true) : missing g m2 ≤ missing g m := by
  apply countP_imp
  intro v hv
  simp only [Bool.not_eq_true'] at hv ⊢
  cases hk : kIn v m with
  | false => rfl
  | true => rw [h v hk] at hv; cases hv

theorem countP_new_le (t : List Nat) (m : List (Nat × Nat)) (right left : Nat) :
    t.countP (fun v => !(kIn v ((right, left) :: m))) ≤ t.countP (fun v => !(kIn v m)) :=
  countP_imp t _ _ (fun v hv => by
    simp only [Bool.not_eq_true'] at hv ⊢
    cases hk : kIn v m with
    | false => rfl
    | true => rw [kIn_cons_of v right left m hk] at hv; cases hv)

theorem countP_insert_lt (l : List Nat) (m : List (Nat × Nat)) (right left : Nat)
    (hmem : right ∈ l) (hnew : kIn right m = false) :
    l.countP (fun v => !(kIn v ((right, left) :: m))) <
      l.countP (fun v => !(kIn v m)) := by
  induction l with
  | nil => cases hmem
  | cons a t ih =>
    rw [List.countP_cons, List.countP_cons]
    by_cases ha : a = right
    · subst ha
      have h1 : (!(kIn a ((a, left) :: m))) = false := by rw [kIn_cons_self]; rfl
      have h2 : (!(kIn a m)) = true := by rw [hnew]; rfl
      rw [if_neg (by simp [h1]), if_pos h2]
      have hle := countP_new_le t m a left
      omega
    · have hcond : (fun v => !(kIn v ((right, left) :: m))) a = ((fun v => !(kIn v m)) a) := by
        simp only
        rw [kIn_cons_ne a right left m ha]
      have ht : right ∈ t := by
        cases List.mem_cons.mp hmem with
        | inl h => exact absurd h.symm ha
        | inr h => exact h
      have hlt := ih ht
      simp only at hcond
      rw [hcond]
      by_cases hc : (!(kIn a m)) = true <;> omega

theorem missing_insert_lt (g : Sodg) (m : List (Nat × Nat)) (right left : Nat)
    (hmem : right ∈ vertexIds g) (hnew : kIn right m = false) :
    missing g ((right, left) :: m) < missing g m :=
  countP_insert_lt (vertexIds g) m right left hmem hnew

theorem missing_nil (g : Sodg) : missing g [] = g.vertices.length := by
  unfold missing
  have : (fun v => !(kIn v ([] : List (Nat × Nat)))) = fun _ => true := by
    funext v
    rfl
  rw [this, List.countP_true]
  exact List.length_map _ _

/-- Nodup property of the visited map keys. -/
def keysNodup (m : List (Nat × Nat)) : Prop := (m.map Prod.fst).Nodup

theorem length_eq_iff_all (K V : List Nat) (hK : K.Nodup) (hV : V.Nodup)
    (hsub : ∀ x ∈ K, x ∈ V) : (K.length = V.length ↔ ∀ v ∈ V, v ∈ K) := by
  have hKc : K.toFinset.card = K.length := List.toFinset_card_of_nodup hK
  have hVc : V.toFinset.card = V.length := List.toFinset_card_of_nodup hV
  have hsubf : K.toFinset ⊆ V.toFinset := by
    intro x hx
    rw [List.mem_toFinset] at hx ⊢
    exact hsub x hx
  constructor
  · intro hlen v hv
    have heq : K.toFinset = V.toFinset :=
      Finset.eq_of_subset_of_card_le hsubf (by omega)
    have : v ∈ K.toFinset := heq ▸ (List.mem_toFinset.mpr hv)
    exact List.mem_toFinset.mp this
  · intro hall
    have hsupf : V.toFinset ⊆ K.toFinset := by
      intro x hx
      rw [List.mem_toFinset] at hx ⊢
      exact hall x hx
    have hcard := congrArg Finset.card (Finset.Subset.antisymm hsubf hsupf)
    omega

theorem mergeRec_mono (g : Sodg) : ∀ fuel : Nat,
    ∀ self left right m res, mergeRec g fuel self left right m = some res →
      mergeRec g (fuel + 1) self left right m = some res := by
  intro fuel
  induction fuel with
  | zero =>
    intro self left right m res h
    exact absurd h (by simp [mergeRec])
  | succ fuel ih =>
    have go : ∀ ks self left m res,
        mergeKidsGo (fun s l r mm => mergeRec g fuel s l r mm) self left m ks = some res →
        mergeKidsGo (fun s l r mm => mergeRec g (fuel + 1) s l r mm) self left m ks =
          some res := by
      intro ks
      induction ks with
      | nil =>
        intro self left m res h
        exact h
      | cons e rest ihk =>
        obtain ⟨a, k, tgt⟩ := e
        intro self left m res h
        rw [mergeKidsGo] at h ⊢
        cases hmt : m.lookup tgt with
        | some t =>
          simp only [hmt] at h ⊢
          cases hb : Sodg.bind self left t (synthLabel a k) with
          | error e1 =>
            simp only [hb] at h ⊢
            exact h
          | ok self1 =>
            simp only [hb] at h ⊢
            cases hrec : mergeRec g fuel self1 t tgt m with
            | none =>
              simp only [hrec] at h
              exact Option.noConfusion h
            | some r1 =>
              have hrec2 := ih self1 t tgt m r1 hrec
              cases r1 with
              | error e1 =>
                simp only [hrec, hrec2] at h ⊢
                exact h
              | ok pr =>
                obtain ⟨self2, m2⟩ := pr
                simp only [hrec, hrec2] at h ⊢
                exact ihk self2 left m2 res h
        | none =>
          simp only [hmt] at h ⊢
          cases hk : Sodg.kid self left a with
          | some p =>
            obtain ⟨t, str⟩ := p
            simp only [hk] at h ⊢
            cases hrec : mergeRec g fuel self t tgt m with
            | none =>
              simp only [hrec] at h
              exact Option.noConfusion h
            | some r1 =>
              have hrec2 := ih self t tgt m r1 hrec
              cases r1 with
              | error e1 =>
                simp only [hrec, hrec2] at h ⊢
                exact h
              | ok pr =>
                obtain ⟨self2, m2⟩ := pr
                simp only [hrec, hrec2] at h ⊢
                exact ihk self2 left m2 res h
          | none =>
            simp only [hk] at h ⊢
            cases hadd : Sodg.add (Sodg.next_id self).2 (Sodg.next_id self).1 with
            | error e1 =>
              simp only [hadd] at h ⊢
              exact h
            | ok selfA =>
              simp only [hadd] at h ⊢
              cases hbind : Sodg.bind selfA left (Sodg.next_id self).1 a with
              | error e1 =>
                simp only [hbind] at h ⊢
                exact h
              | ok selfB =>
                simp only [hbind] at h ⊢
                cases hrec : mergeRec g fuel selfB (Sodg.next_id self).1 tgt m with
                | none =>
                  simp only [hrec] at h
                  exact Option.noConfusion h
                | some r1 =>
                  have hrec2 := ih selfB (Sodg.next_id self).1 tgt m r1 hrec
                  cases r1 with
                  | error e1 =>
                    simp only [hrec, hrec2] at h ⊢
                    exact h
                  | ok pr =>
                    obtain ⟨self2, m2⟩ := pr
                    simp only [hrec, hrec2] at h ⊢
                    exact ihk self2 left m2 res h
    intro self left right m res h
    rw [mergeRec] at h ⊢
    cases hml : m.lookup right with
    | some x =>
      simp only [hml] at h ⊢
      exact h
    | none =>
      simp only [hml] at h ⊢
      cases hfull : Sodg.is_full g right with
      | error e1 =>
        simp only [hfull] at h ⊢
        exact h
      | ok full =>
        simp only [hfull] at h ⊢
        cases hput : (if full then Sodg.put self left ((Sodg.dataOf g right).getD [])
            else .ok self) with
        | error e1 =>
          simp only [hput] at h ⊢
          exact h
        | ok self1 =>
          simp only [hput] at h ⊢
          cases hkids : Sodg.kids g right with
          | error e1 =>
            simp only [hkids] at h ⊢
            exact h
          | ok ks =>
            simp only [hkids] at h ⊢
            exact go ks self1 left ((right, left) :: m) res h

theorem mergeRec_mono_le (g : Sodg) (fuel fuel' : Nat) (hle : fuel ≤ fuel') :
    ∀ self left right m res, mergeRec g fuel self left right m = some res →
      mergeRec g fuel' self left right m = some res := by
  induction hle with
  | refl => intro self left right m res h; exact h
  | step _ ihs =>
    intro self left right m res h
    exact mergeRec_mono g _ self left right m res (ihs self left right m res h)

/-- What the recursive merge guarantees about the visited map when it
returns successfully from a vertex `right`: the map only grows, `right`
is in it, new keys are source vertices, new keys are closed under the
source edges, new keys are reachable from `right`, and distinctness of
keys is preserved. -/
def MrOk (g : Sodg) (right : Nat) (m m2 : List (Nat × Nat)) : Prop :=
  (∀ v, kIn v m = true → kIn v m2 = true) ∧
  kIn right m2 = true ∧
  (∀ v, kIn v m2 = true → kIn v m = true ∨ v ∈ vertexIds g) ∧
  (∀ v, kIn v m2 = true → kIn v m = false → ∀ w ∈ targetsOf g v, kIn w m2 = true) ∧
  (∀ v, kIn v m2 = true → kIn v m = true ∨ Reach g right v) ∧
  (keysNodup m → keysNodup m2)

/-- The same guarantees for the loop over a list of kids, with the targets
of the processed edges in place of the root. -/
def GoOk (g : Sodg) (ks : List (String × String × Nat)) (m m2 : List (Nat × Nat)) : Prop :=
  (∀ v, kIn v m = true → kIn v m2 = true) ∧
  (∀ e ∈ ks, kIn e.2.2 m2 = true) ∧
  (∀ v, kIn v m2 = true → kIn v m = true ∨ v ∈ vertexIds g) ∧
  (∀ v, kIn v m2 = true → kIn v m = false → ∀ w ∈ targetsOf g v, kIn w m2 = true) ∧
  (∀ v, kIn v m2 = true → kIn v m = true ∨ ∃ e ∈ ks, Reach g e.2.2 v) ∧
  (keysNodup m → keysNodup m2)

theorem GoOk_same (g : Sodg) (m : List (Nat × Nat)) : GoOk g [] m m := by
  refine ⟨fun v h => h, by simp, fun v h => Or.inl h, ?_, fun v h => Or.inl h, fun h => h⟩
  intro v h hf
  rw [h] at hf
  cases hf

theorem MrOk_same (g : Sodg) (right : Nat) (m : List (Nat × Nat))
    (h : kIn right m = true) : MrOk g right m m := by
  refine ⟨fun v hh => hh, h, fun v hh => Or.inl hh, ?_, fun v hh => Or.inl hh, fun hh => hh⟩
  intro v hh hf
  rw [hh] at hf
  cases hf

theorem GoOk_cons (g : Sodg) (a k : String) (tgt : Nat)
    (rest : List (String × String × Nat)) (m m1 m2 : List (Nat × Nat))
    (hin : MrOk g tgt m m1) (hrest : GoOk g rest m1 m2) :
    GoOk g ((a, k, tgt) :: rest) m m2 := by
  obtain ⟨i1, i2, i3, i4, i5, i6⟩ := hin
  obtain ⟨r1, r2, r3, r4, r5, r6⟩ := hrest
  refine ⟨fun v h => r1 v (i1 v h), ?_, ?_, ?_, ?_, fun h => r6 (i6 h)⟩
  · intro e he
    cases List.mem_cons.mp he with
    | inl heq => subst heq; exact r1 _ i2
    | inr hm => exact r2 e hm
  · intro v h
    cases r3 v h with
    | inr hV => exact Or.inr hV
    | inl h1 =>
      cases i3 v h1 with
      | inl h0 => exact Or.inl h0
      | inr hV => exact Or.inr hV
  · intro v h hf
    by_cases h1 : kIn v m1 = true
    · intro w hw
      exact r1 w (i4 v h1 hf w hw)
    · have h1f : kIn v m1 = false := by revert h1; cases kIn v m1 <;> simp
      intro w hw
      exact r4 v h h1f w hw
  · intro v h
    cases r5 v h with
    | inl h1 =>
      cases i5 v h1 with
      | inl h0 => exact Or.inl h0
      | inr hr => exact Or.inr ⟨(a, k, tgt), List.mem_cons_self _ _, hr⟩
    | inr hex =>
      obtain ⟨e, he, hr⟩ := hex
      exact Or.inr ⟨e, List.mem_cons_of_mem _ he, hr⟩

theorem MrOk_step (g : Sodg) (right left : Nat) (m m2 : List (Nat × Nat)) (ν : Vertex)
    (hnew : kIn right m = false)
    (hν : g.vertices.lookup right = some ν)
    (hgo : GoOk g (kidsFrom 0 ν.edges) ((right, left) :: m) m2) :
    MrOk g right m m2 := by
  obtain ⟨g1, g2, g3, g4, g5, g6⟩ := hgo
  have hmem : right ∈ vertexIds g := mem_keys_of_lookup g.vertices right ν hν
  have htg : targetsOf g right = ν.edges.map Prod.snd := by
    simp only [targetsOf, hν]
  refine ⟨?_, ?_, ?_, ?_, ?_, ?_⟩
  · exact fun v h => g1 v (kIn_cons_of v right left m h)
  · exact g1 right (kIn_cons_self right left m)
  · intro v h
    cases g3 v h with
    | inr hV => exact Or.inr hV
    | inl h1 =>
      cases kIn_cons_elim v right left m h1 with
      | inl heq => subst heq; exact Or.inr hmem
      | inr h0 => exact Or.inl h0
  · intro v h hf w hw
    by_cases hv : v = right
    · subst hv
      rw [htg] at hw
      have hw2 : w ∈ (kidsFrom 0 ν.edges).map (fun e => e.2.2) := by
        rw [kidsFrom_targets]
        exact hw
      obtain ⟨e, he, hew⟩ := List.mem_map.mp hw2
      exact hew ▸ g2 e he
    · have h1f : kIn v ((right, left) :: m) = false := by
        rw [kIn_cons_ne v right left m hv]
        exact hf
      exact g4 v h h1f w hw
  · intro v h
    cases g5 v h with
    | inl h1 =>
      cases kIn_cons_elim v right left m h1 with
      | inl heq => subst heq; exact Or.inr Reach.refl
      | inr h0 => exact Or.inl h0
    | inr hex =>
      obtain ⟨e, he, hr⟩ := hex
      have hedge := kidsFrom_mem ν.edges 0 e he
      have hstep : Reach g right e.2.2 := Reach.step Reach.refl hν hedge
      exact Or.inr (reach_trans g right e.2.2 v hstep hr)
  · intro hnd
    apply g6
    unfold keysNodup at hnd ⊢
    simp only [List.map_cons]
    exact List.nodup_cons.mpr ⟨kIn_false_not_mem right m hnew, hnd⟩

theorem mergeRec_spec (g : Sodg) : ∀ fuel : Nat,
    ∀ self left right m s2 m2,
      mergeRec g fuel self left right m = some (.ok (s2, m2)) → MrOk g right m m2 := by
  intro fuel
  induction fuel with
  | zero =>
    intro self left right m s2 m2 h
    exact absurd h (by simp [mergeRec])
  | succ fuel ih =>
    have go : ∀ ks self left m s2 m2,
        mergeKidsGo (fun s l r mm => mergeRec g fuel s l r mm) self left m ks =
          some (.ok (s2, m2)) → GoOk g ks m m2 := by
      intro ks
      induction ks with
      | nil =>
        intro self left m s2 m2 h
        rw [mergeKidsGo] at h
        have hm : m = m2 := congrArg Prod.snd (Except.ok.inj (Option.some.inj h))
        rw [← hm]
        exact GoOk_same g m
      | cons e rest ihk =>
        obtain ⟨a, k, tgt⟩ := e
        intro self left m s2 m2 h
        rw [mergeKidsGo] at h
        cases hmt : m.lookup tgt with
        | some t =>
          simp only [hmt] at h
          cases hb : Sodg.bind self left t (synthLabel a k) with
          | error e1 =>
            simp only [hb] at h
            exact absurd h (by simp)
          | ok self1 =>
            simp only [hb] at h
            cases hrec : mergeRec g fuel self1 t tgt m with
            | none =>
              simp only [hrec] at h
              exact Option.noConfusion h
            | some r1 =>
              cases r1 with
              | error e1 =>
                simp only [hrec] at h
                exact absurd h (by simp)
              | ok pr =>
                obtain ⟨selfM, mM⟩ := pr
                simp only [hrec] at h
                exact GoOk_cons g a k tgt rest m mM m2
                  (ih self1 t tgt m selfM mM hrec) (ihk selfM left mM s2 m2 h)
        | none =>
          simp only [hmt] at h
          cases hk : Sodg.kid self left a with
          | some p =>
            obtain ⟨t, str⟩ := p
            simp only [hk] at h
            cases hrec : mergeRec g fuel self t tgt m with
            | none =>
              simp only [hrec] at h
              exact Option.noConfusion h
            | some r1 =>
              cases r1 with
              | error e1 =>
                simp only [hrec] at h
                exact absurd h (by simp)
              | ok pr =>
                obtain ⟨selfM, mM⟩ := pr
                simp only [hrec] at h
                exact GoOk_cons g a k tgt rest m mM m2
                  (ih self t tgt m selfM mM hrec) (ihk selfM left mM s2 m2 h)
          | none =>
            simp only [hk] at h
            cases hadd : Sodg.add (Sodg.next_id self).2 (Sodg.next_id self).1 with
            | error e1 =>
              simp only [hadd] at h
              exact absurd h (by simp)
            | ok selfA =>
              simp only [hadd] at h
              cases hbind : Sodg.bind selfA left (Sodg.next_id self).1 a with
              | error e1 =>
                simp only [hbind] at h
                exact absurd h (by simp)
              | ok selfB =>
                simp only [hbind] at h
                cases hrec : mergeRec g fuel selfB (Sodg.next_id self).1 tgt m with
                | none =>
                  simp only [hrec] at h
                  exact Option.noConfusion h
                | some r1 =>
                  cases r1 with
                  | error e1 =>
                    simp only [hrec] at h
                    exact absurd h (by simp)
                  | ok pr =>
                    obtain ⟨selfM, mM⟩ := pr
                    simp only [hrec] at h
                    exact GoOk_cons g a k tgt rest m mM m2
                      (ih selfB (Sodg.next_id self).1 tgt m selfM mM hrec)
                      (ihk selfM left mM s2 m2 h)
    intro self left right m s2 m2 h
    rw [mergeRec] at h
    cases hml : m.lookup right with
    | some x =>
      simp only [hml] at h
      have hin : kIn right m = true := by simp [kIn, hml]
      have hm : m = m2 := congrArg Prod.snd (Except.ok.inj (Option.some.inj h))
      rw [← hm]
      exact MrOk_same g right m hin
    | none =>
      simp only [hml] at h
      have hnew : kIn right m = false := by simp [kIn, hml]
      cases hfull : Sodg.is_full g right with
      | error e1 =>
        simp only [hfull] at h
        exact absurd h (by simp)
      | ok full =>
        simp only [hfull] at h
        have hν : ∃ ν, g.vertices.lookup right = some ν := by
          revert hfull
          unfold Sodg.is_full
          cases hl : g.vertices.lookup right with
          | none => intro hc; exact Except.noConfusion hc
          | some ν => intro _; exact ⟨ν, rfl⟩
        obtain ⟨ν, hν⟩ := hν
        cases hput : (if full then Sodg.put self left ((Sodg.dataOf g right).getD [])
            else .ok self) with
        | error e1 =>
          simp only [hput] at h
          exact absurd h (by simp)
        | ok self1 =>
          simp only [hput] at h
          cases hkids : Sodg.kids g right with
          | error e1 =>
            simp only [hkids] at h
            exact absurd h (by simp)
          | ok ks =>
            simp only [hkids] at h
            have hks : ks = kidsFrom 0 ν.edges := by
              revert hkids
              unfold Sodg.kids
              rw [hν]
              intro hc
              exact (Except.ok.inj hc).symm
            subst hks
            exact MrOk_step g right left m m2 ν hnew hν
              (go (kidsFrom 0 ν.edges) self1 left ((right, left) :: m) s2 m2 h)

theorem mergeRec_enough (g : Sodg) : ∀ fuel : Nat,
    ∀ self left right m, missing g m + 1 ≤ fuel →
      mergeRec g fuel self left right m ≠ none := by
  intro fuel
  induction fuel with
  | zero =>
    intro self left right m hf
    omega
  | succ fuel ih =>
    have go : ∀ ks self left m, missing g m + 1 ≤ fuel →
        mergeKidsGo (fun s l r mm => mergeRec g fuel s l r mm) self left m ks ≠ none := by
      intro ks
      induction ks with
      | nil =>
        intro self left m hf hcon
        rw [mergeKidsGo] at hcon
        exact Option.noConfusion hcon
      | cons e rest ihk =>
        obtain ⟨a, k, tgt⟩ := e
        intro self left m hf hcon
        rw [mergeKidsGo] at hcon
        cases hmt : m.lookup tgt with
        | some t =>
          simp only [hmt] at hcon
          cases hb : Sodg.bind self left t (synthLabel a k) with
          | error e1 =>
            simp only [hb] at hcon
            exact Option.noConfusion hcon
          | ok self1 =>
            simp only [hb] at hcon
            cases hrec : mergeRec g fuel self1 t tgt m with
            | none => exact ih self1 t tgt m hf hrec
            | some r1 =>
              cases r1 with
              | error e1 =>
                simp only [hrec] at hcon
                exact Option.noConfusion hcon
              | ok pr =>
                obtain ⟨selfM, mM⟩ := pr
                simp only [hrec] at hcon
                have hmono := (mergeRec_spec g fuel self1 t tgt m selfM mM hrec).1
                have hmM : missing g mM + 1 ≤ fuel :=
                  le_trans (Nat.add_le_add_right (missing_mono g m mM hmono) 1) hf
                exact ihk selfM left mM hmM hcon
        | none =>
          simp only [hmt] at hcon
          cases hk : Sodg.kid self left a with
          | some p =>
            obtain ⟨t, str⟩ := p
            simp only [hk] at hcon
            cases hrec : mergeRec g fuel self t tgt m with
            | none => exact ih self t tgt m hf hrec
            | some r1 =>
              cases r1 with
              | error e1 =>
                simp only [hrec] at hcon
                exact Option.noConfusion hcon
              | ok pr =>
                obtain ⟨selfM, mM⟩ := pr
                simp only [hrec] at hcon
                have hmono := (mergeRec_spec g fuel self t tgt m selfM mM hrec).1
                have hmM : missing g mM + 1 ≤ fuel :=
                  le_trans (Nat.add_le_add_right (missing_mono g m mM hmono) 1) hf
                exact ihk selfM left mM hmM hcon
          | none =>
            simp only [hk] at hcon
            cases hadd : Sodg.add (Sodg.next_id self).2 (Sodg.next_id self).1 with
            | error e1 =>
              simp only [hadd] at hcon
              exact Option.noConfusion hcon
            | ok selfA =>
              simp only [hadd] at hcon
              cases hbind : Sodg.bind selfA left (Sodg.next_id self).1 a with
              | error e1 =>
                simp only [hbind] at hcon
                exact Option.noConfusion hcon
              | ok selfB =>
                simp only [hbind] at hcon
                cases hrec : mergeRec g fuel selfB (Sodg.next_id self).1 tgt m with
                | none => exact ih selfB (Sodg.next_id self).1 tgt m hf hrec
                | some r1 =>
                  cases r1 with
                  | error e1 =>
                    simp only [hrec] at hcon
                    exact Option.noConfusion hcon
                  | ok pr =>
                    obtain ⟨selfM, mM⟩ := pr
                    simp only [hrec] at hcon
                    have hmono :=
                      (mergeRec_spec g fuel selfB (Sodg.next_id self).1 tgt m selfM mM hrec).1
                    have hmM : missing g mM + 1 ≤ fuel :=
                      le_trans (Nat.add_le_add_right (missing_mono g m mM hmono) 1) hf
                    exact ihk selfM left mM hmM hcon
    intro self left right m hf hcon
    rw [mergeRec] at hcon
    cases hml : m.lookup right with
    | some x =>
      simp only [hml] at hcon
      exact Option.noConfusion hcon
    | none =>
      simp only [hml] at hcon
      have hnew : kIn right m = false := by simp [kIn, hml]
      cases hfull : Sodg.is_full g right with
      | error e1 =>
        simp only [hfull] at hcon
        exact Option.noConfusion hcon
      | ok full =>
        simp only [hfull] at hcon
        have hν : ∃ ν, g.vertices.lookup right = some ν := by
          revert hfull
          unfold Sodg.is_full
          cases hl : g.vertices.lookup right with
          | none => intro hc; exact Except.noConfusion hc
          | some ν => intro _; exact ⟨ν, rfl⟩
        obtain ⟨ν, hν⟩ := hν
        have hmem : right ∈ vertexIds g := mem_keys_of_lookup g.vertices right ν hν
        have hlt := missing_insert_lt g m right left hmem hnew
        have hf1 : missing g ((right, left) :: m) + 1 ≤ fuel := by omega
        cases hput : (if full then Sodg.put self left ((Sodg.dataOf g right).getD [])
            else .ok self) with
        | error e1 =>
          simp only [hput] at hcon
          exact Option.noConfusion hcon
        | ok self1 =>
          simp only [hput] at hcon
          cases hkids : Sodg.kids g right with
          | error e1 =>
            simp only [hkids] at hcon
            exact Option.noConfusion hcon
          | ok ks =>
            simp only [hkids] at hcon
            exact go ks self1 left ((right, left) :: m) hf1 hcon

/-- C3: the fueled recursion is already complete at depth one more than
the number of distinct vertices of the source graph: with an initially
empty visited map, any fuel of at least `source vertex count + 1` gives
the same outcome, and that outcome exists (the recursion never runs out),
because each source vertex is inserted into the visited map before its
children are traversed and an already-mapped vertex returns immediately,
so the depth is bounded by the number of distinct source vertices, never
by path length. -/
theorem mergeRec_fuel_bound (g self : Sodg) (left right : Nat) (fuel : Nat)
    (hf : g.vertices.length + 1 ≤ fuel) :
    mergeRec g fuel self left right [] =
      mergeRec g (g.vertices.length + 1) self left right [] ∧
    mergeRec g (g.vertices.length + 1) self left right [] ≠ none := by
  have hnn : mergeRec g (g.vertices.length + 1) self left right [] ≠ none := by
    apply mergeRec_enough g (g.vertices.length + 1) self left right []
    rw [missing_nil]
  refine ⟨?_, hnn⟩
  cases hres : mergeRec g (g.vertices.length + 1) self left right [] with
  | none => exact absurd hres hnn
  | some res =>
    exact mergeRec_mono_le g (g.vertices.length + 1) fuel hf self left right [] res hres

/-- Two-vertex cycle with edges foo and bar, one of the spec's test
scenarios. -/
def gCycle2 : Sodg := ⟨[(1, ⟨[("foo", 2)], none⟩), (2, ⟨[("bar", 1)], none⟩)], 3⟩

theorem mergeRec_fuel_bound_witness :
    gCycle2.vertices.length + 1 ≤ 50 ∧
    mergeRec gCycle2 50 gCycle2 1 1 [] =
      mergeRec gCycle2 (gCycle2.vertices.length + 1) gCycle2 1 1 [] :=
  ⟨by decide, (mergeRec_fuel_bound gCycle2 gCycle2 1 1 50 (by decide)).1⟩

/-- C1: after the recursive copy completes successfully, merge compares
the number of distinct source vertices in the visited map against the
source's vertex count; the counts agree exactly when `right` reaches
every vertex of the source by outgoing edges, merge returns the coverage
error reporting both counts exactly when they differ, and otherwise
returns Ok. -/
theorem merge_coverage_iff (g self : Sodg) (left right : Nat) (s2 : Sodg)
    (m2 : List (Nat × Nat)) (hnd : (vertexIds g).Nodup)
    (h : mergeRec g (g.vertices.length + 1) self left right [] = some (.ok (s2, m2))) :
    (m2.length = g.vertices.length ↔ ReachesAll g right) ∧
    (ReachesAll g right → Sodg.merge self g left right = .ok s2) ∧
    (¬ ReachesAll g right →
      Sodg.merge self g left right = .error (coverageMsg m2.length g.vertices.length)) := by
  obtain ⟨M1, M2, M3, M4, M5, M6⟩ :=
    mergeRec_spec g (g.vertices.length + 1) self left right [] s2 m2 h
  have hKnd : (m2.map Prod.fst).Nodup := by
    apply M6
    unfold keysNodup
    simp
  have hsub : ∀ x ∈ m2.map Prod.fst, x ∈ vertexIds g := by
    intro x hx
    have hkx : kIn x m2 = true := (kIn_iff_keys x m2).mpr hx
    cases M3 x hkx with
    | inl h0 => rw [kIn_nil] at h0; cases h0
    | inr hV => exact hV
  have hlen2 : m2.length = (m2.map Prod.fst).length := (List.length_map m2 Prod.fst).symm
  have hlenV : g.vertices.length = (vertexIds g).length :=
    (List.length_map g.vertices Prod.fst).symm
  have hreach_in : ∀ v, Reach g right v → kIn v m2 = true := by
    intro v hr
    induction hr with
    | refl => exact M2
    | @step u w ν a1 h1 h2 h3 ihr =>
      refine M4 u ihr (kIn_nil u) w ?_
      simp only [targetsOf, h2]
      exact List.mem_map_of_mem Prod.snd h3
  have hkey_reach : ∀ v, kIn v m2 = true → Reach g right v := by
    intro v hv
    cases M5 v hv with
    | inl h0 => rw [kIn_nil] at h0; cases h0
    | inr hr => exact hr
  have hiff : m2.length = g.vertices.length ↔ ReachesAll g right := by
    rw [hlen2, hlenV]
    rw [length_eq_iff_all (m2.map Prod.fst) (vertexIds g) hKnd hnd hsub]
    constructor
    · intro hall v hvV
      exact hkey_reach v ((kIn_iff_keys v m2).mpr (hall v hvV))
    · intro hra v hvV
      exact (kIn_iff_keys v m2).mp (hreach_in v (hra v hvV))
  refine ⟨hiff, ?_, ?_⟩
  · intro hra
    have hlen : m2.length = g.vertices.length := hiff.mpr hra
    simp only [Sodg.merge, h]
    rw [if_neg (fun hc => hc hlen)]
  · intro hra
    have hlen : m2.length ≠ g.vertices.length := fun hc => hra (hiff.mp hc)
    simp only [Sodg.merge, h]
    rw [if_pos hlen]

/-- Source of the coverage-failure scenario: vertex 5 is isolated. -/
def srcCov : Sodg := ⟨[(0, Vertex.empty), (5, Vertex.empty)], 6⟩

/-- Destination of the coverage-failure scenario. -/
def dstCov : Sodg := ⟨[(0, Vertex.empty)], 1⟩

theorem merge_coverage_iff_witness :
    (vertexIds srcCov).Nodup ∧
    mergeRec srcCov (srcCov.vertices.length + 1) dstCov 0 0 [] =
      some (.ok (dstCov, [(0, 0)])) ∧
    (([(0, 0)] : List (Nat × Nat)).length = srcCov.vertices.length ↔ ReachesAll srcCov 0) := by
  refine ⟨by decide, by decide, ?_⟩
  exact (merge_coverage_iff srcCov dstCov 0 0 dstCov [(0, 0)] (by decide) (by decide)).1

/-! Infrastructure for the self-merge claim. -/

/-- Spec invariants I1 and I2 plus edge targets present: vertex ids are
unique, labels are unique within a vertex, edges point at vertices. -/
def Wf (g : Sodg) : Prop :=
  (vertexIds g).Nodup ∧
  ∀ p ∈ g.vertices, (p.2.edges.map Prod.fst).Nodup ∧ ∀ e ∈ p.2.edges, e.2 ∈ vertexIds g

/-- No edge label contains the separator used by synthesized labels. -/
def SlashFree (g : Sodg) : Prop :=
  ∀ p ∈ g.vertices, ∀ e ∈ p.2.edges, '/' ∉ e.1.data

/-- The edges whose label is free of the synthesis separator. -/
def slashFreeEdges : List (String × Nat) → List (String × Nat)
  | [] => []
  | e :: es => if '/' ∈ e.1.data then slashFreeEdges es else e :: slashFreeEdges es

/-- The destination agrees with the source on every vertex id, and on
every vertex its separator-free edges are exactly the source's edges. -/
def MInv (g self : Sodg) : Prop :=
  vertexIds self = vertexIds g ∧
  ∀ v ν, g.vertices.lookup v = some ν →
    ∃ ν1, self.vertices.lookup v = some ν1 ∧ slashFreeEdges ν1.edges = ν.edges

/-- The visited map sends every key to itself. -/
def MappedId (m : List (Nat × Nat)) : Prop := ∀ p ∈ m, p.2 = p.1

theorem slashFreeEdges_id (es : List (String × Nat)) (h : ∀ e ∈ es, '/' ∉ e.1.data) :
    slashFreeEdges es = es := by
  induction es with
  | nil => rfl
  | cons e es ih =>
    rw [slashFreeEdges, if_neg (h e (List.mem_cons_self _ _))]
    rw [ih (fun x hx => h x (List.mem_cons_of_mem _ hx))]

theorem synth_has_slash (a k : String) : '/' ∈ (synthLabel a k).data := by
  simp [synthLabel]

theorem slashFree_bind (es : List (String × Nat)) (s : String) (t : Nat)
    (hs : '/' ∈ s.data) :
    slashFreeEdges (removeLabel s es ++ [(s, t)]) = slashFreeEdges es := by
  induction es with
  | nil =>
    show slashFreeEdges [(s, t)] = []
    rw [slashFreeEdges, if_pos hs]
    rfl
  | cons e es ih =>
    by_cases he : e.1 = s
    · rw [removeLabel, if_pos he]
      conv_rhs => rw [slashFreeEdges, if_pos (by rw [he]; exact hs)]
      exact ih
    · rw [removeLabel, if_neg he, List.cons_append]
      by_cases hsl : '/' ∈ e.1.data
      · rw [slashFreeEdges, if_pos hsl]
        conv_rhs => rw [slashFreeEdges, if_pos hsl]
        exact ih
      · rw [slashFreeEdges, if_neg hsl]
        conv_rhs => rw [slashFreeEdges, if_neg hsl]
        rw [ih]

theorem findLabel_inv (es1 : List (String × Nat)) : ∀ (es : List (String × Nat))
    (a : String) (tgt : Nat), slashFreeEdges es1 = es → (es.map Prod.fst).Nodup →
    (a, tgt) ∈ es → '/' ∉ a.data → findLabel a es1 = some (a, tgt) := by
  induction es1 with
  | nil =>
    intro es a tgt hfe hnd hmem ha
    rw [show slashFreeEdges [] = [] from rfl] at hfe
    rw [← hfe] at hmem
    exact absurd hmem (List.not_mem_nil _)
  | cons e es1 ih =>
    intro es a tgt hfe hnd hmem ha
    by_cases hsl : '/' ∈ e.1.data
    · rw [slashFreeEdges, if_pos hsl] at hfe
      have hne : e.1 ≠ a := fun hh => ha (hh ▸ hsl)
      rw [findLabel, if_neg hne]
      exact ih es a tgt hfe hnd hmem ha
    · rw [slashFreeEdges, if_neg hsl] at hfe
      subst hfe
      rw [List.map_cons] at hnd
      cases List.mem_cons.mp hmem with
      | inl heq =>
        rw [findLabel, if_pos (by rw [← heq])]
        rw [← heq]
      | inr hmem1 =>
        have hnea : e.1 ≠ a := by
          intro hh
          have hin : a ∈ (slashFreeEdges es1).map Prod.fst :=
            List.mem_map_of_mem Prod.fst hmem1
          exact (List.nodup_cons.mp hnd).1 (hh ▸ hin)
        rw [findLabel, if_neg hnea]
        exact ih (slashFreeEdges es1) a tgt rfl (List.nodup_cons.mp hnd).2 hmem1 ha

theorem lookup_some_of_mem_ids (g : Sodg) (v : Nat) (h : v ∈ vertexIds g) :
    ∃ ν, g.vertices.lookup v = some ν :=
  lookup_some_of_mem_keys g.vertices v h

theorem bind_ok (g1 : Sodg) (v1 v2 : Nat) (a : String)
    (h1 : v1 ∈ vertexIds g1) (h2 : v2 ∈ vertexIds g1) :
    Sodg.bind g1 v1 v2 a =
      .ok (updVertex g1 v1 (fun ν => ⟨removeLabel a ν.edges ++ [(a, v2)], ν.data⟩)) := by
  obtain ⟨ν1, hl1⟩ := lookup_some_of_mem_ids g1 v1 h1
  obtain ⟨ν2, hl2⟩ := lookup_some_of_mem_ids g1 v2 h2
  unfold Sodg.bind
  simp only [hl1, hl2]

theorem put_ok (g1 : Sodg) (v : Nat) (d : Hex) (h : v ∈ vertexIds g1) :
    Sodg.put g1 v d = .ok (updVertex g1 v (fun ν => ⟨ν.edges, some d⟩)) := by
  obtain ⟨ν1, hl1⟩ := lookup_some_of_mem_ids g1 v h
  unfold Sodg.put
  simp only [hl1]

theorem is_full_ok (g : Sodg) (v : Nat) (ν : Vertex) (h : g.vertices.lookup v = some ν) :
    Sodg.is_full g v = .ok ν.data.isSome := by
  unfold Sodg.is_full
  simp only [h]

theorem kids_ok (g : Sodg) (v : Nat) (ν : Vertex) (h : g.vertices.lookup v = some ν) :
    Sodg.kids g v = .ok (kidsFrom 0 ν.edges) := by
  unfold Sodg.kids
  simp only [h]

theorem inv_updVertex (g self : Sodg) (w : Nat) (f : Vertex → Vertex)
    (hInv : MInv g self)
    (hf : ∀ ν, slashFreeEdges (f ν).edges = slashFreeEdges ν.edges) :
    MInv g (updVertex self w f) := by
  obtain ⟨hids, hv⟩ := hInv
  refine ⟨by rw [updVertex_ids]; exact hids, ?_⟩
  intro v ν hl
  obtain ⟨ν1, hν1, hfe⟩ := hv v ν hl
  by_cases hw : v = w
  · subst hw
    refine ⟨f ν1, ?_, ?_⟩
    · rw [updVertex_lookup, if_pos rfl, hν1]
      rfl
    · rw [hf ν1, hfe]
  · refine ⟨ν1, ?_, hfe⟩
    rw [updVertex_lookup, if_neg hw]
    exact hν1

theorem inv_init (g : Sodg) (hsf : SlashFree g) : MInv g g := by
  refine ⟨rfl, ?_⟩
  intro v ν hl
  refine ⟨ν, hl, slashFreeEdges_id ν.edges ?_⟩
  intro e he
  exact hsf (v, ν) (lookup_mem g.vertices v ν hl) e he

theorem mappedId_cons (m : List (Nat × Nat)) (v : Nat) (h : MappedId m) :
    MappedId ((v, v) :: m) := by
  intro p hp
  cases List.mem_cons.mp hp with
  | inl he => subst he; rfl
  | inr hm => exact h p hm

theorem mappedId_lookup (m : List (Nat × Nat)) (tgt t : Nat) (hM : MappedId m)
    (h : m.lookup tgt = some t) : t = tgt :=
  hM (tgt, t) (lookup_mem m tgt t h)

/-- Statement of the self-merge invariant preservation at a given depth. -/
def MRstat (g : Sodg) (fuel : Nat) : Prop :=
  ∀ self v0 m res, MInv g self → MappedId m → v0 ∈ vertexIds g →
    mergeRec g fuel self v0 v0 m = some res →
    ∃ s2 m2, res = .ok (s2, m2) ∧ MInv g s2 ∧ MappedId m2

theorem go_selfmerge (g : Sodg) (hwf : Wf g) (hsf : SlashFree g) (fuel : Nat)
    (hMR : MRstat g fuel) :
    ∀ ks self v0 m res, MInv g self → MappedId m → v0 ∈ vertexIds g →
      (∀ e ∈ ks, ∃ ν, g.vertices.lookup v0 = some ν ∧ (e.1, e.2.2) ∈ ν.edges) →
      mergeKidsGo (fun s l r mm => mergeRec g fuel s l r mm) self v0 m ks = some res →
      ∃ s2 m2, res = .ok (s2, m2) ∧ MInv g s2 ∧ MappedId m2 := by
  intro ks
  induction ks with
  | nil =>
    intro self v0 m res hInv hM hv0 hks h
    rw [mergeKidsGo] at h
    exact ⟨self, m, (Option.some.inj h).symm, hInv, hM⟩
  | cons e rest ihk =>
    obtain ⟨a, k, tgt⟩ := e
    intro self v0 m res hInv hM hv0 hks h
    rw [mergeKidsGo] at h
    obtain ⟨ν, hν, hedge⟩ := hks (a, k, tgt) (List.mem_cons_self _ _)
    have hover := hwf.2 (v0, ν) (lookup_mem g.vertices v0 ν hν)
    have htgt : tgt ∈ vertexIds g := hover.2 (a, tgt) hedge
    have hv0self : v0 ∈ vertexIds self := by rw [hInv.1]; exact hv0
    have htgtself : tgt ∈ vertexIds self := by rw [hInv.1]; exact htgt
    have hksrest : ∀ e ∈ rest, ∃ ν, g.vertices.lookup v0 = some ν ∧ (e.1, e.2.2) ∈ ν.edges :=
      fun e he => hks e (List.mem_cons_of_mem _ he)
    cases hmt : m.lookup tgt with
    | some t =>
      have ht : t = tgt := mappedId_lookup m tgt t hM hmt
      subst ht
      simp only [hmt] at h
      simp only [bind_ok self v0 t (synthLabel a k) hv0self htgtself] at h
      have hInv1 : MInv g (updVertex self v0
          (fun ν => ⟨removeLabel (synthLabel a k) ν.edges ++ [(synthLabel a k, t)],
            ν.data⟩)) :=
        inv_updVertex g self v0 _ hInv
          (fun ν1 => slashFree_bind ν1.edges (synthLabel a k) t (synth_has_slash a k))
      cases hrec : mergeRec g fuel (updVertex self v0
          (fun ν => ⟨removeLabel (synthLabel a k) ν.edges ++ [(synthLabel a k, t)],
            ν.data⟩)) t t m with
      | none =>
        simp only [hrec] at h
        exact Option.noConfusion h
      | some r1 =>
        obtain ⟨sM, mM, hr1, hInvM, hMM⟩ := hMR _ t m r1 hInv1 hM htgt hrec
        subst hr1
        simp only [hrec] at h
        exact ihk sM v0 mM res hInvM hMM hv0 hksrest h
    | none =>
      simp only [hmt] at h
      have hkid : Sodg.kid self v0 a = some (tgt, a) := by
        obtain ⟨ν1, hν1, hfe⟩ := hInv.2 v0 ν hν
        unfold Sodg.kid
        simp only [hν1]
        rw [findLabel_inv ν1.edges ν.edges a tgt hfe hover.1 hedge
          (hsf (v0, ν) (lookup_mem g.vertices v0 ν hν) (a, tgt) hedge)]
        rfl
      simp only [hkid] at h
      cases hrec : mergeRec g fuel self tgt tgt m with
      | none =>
        simp only [hrec] at h
        exact Option.noConfusion h
      | some r1 =>
        obtain ⟨sM, mM, hr1, hInvM, hMM⟩ := hMR self tgt m r1 hInv hM htgt hrec
        subst hr1
        simp only [hrec] at h
        exact ihk sM v0 mM res hInvM hMM hv0 hksrest h

theorem mr_selfmerge (g : Sodg) (hwf : Wf g) (hsf : SlashFree g) :
    ∀ fuel : Nat, MRstat g fuel := by
  intro fuel
  induction fuel with
  | zero =>
    intro self v0 m res _ _ _ h
    exact absurd h (by simp [mergeRec])
  | succ fuel ih =>
    intro self v0 m res hInv hM hv0 h
    rw [mergeRec] at h
    cases hml : m.lookup v0 with
    | some x =>
      simp only [hml] at h
      exact ⟨self, m, (Option.some.inj h).symm, hInv, hM⟩
    | none =>
      simp only [hml] at h
      obtain ⟨ν, hν⟩ := lookup_some_of_mem_ids g v0 hv0
      simp only [is_full_ok g v0 ν hν] at h
      have hv0self : v0 ∈ vertexIds self := by rw [hInv.1]; exact hv0
      have hM1 : MappedId ((v0, v0) :: m) := mappedId_cons m v0 hM
      have hks : ∀ e ∈ kidsFrom 0 ν.edges,
          ∃ ν1, g.vertices.lookup v0 = some ν1 ∧ (e.1, e.2.2) ∈ ν1.edges :=
        fun e he => ⟨ν, hν, kidsFrom_mem ν.edges 0 e he⟩
      cases hdata : ν.data.isSome with
      | true =>
        simp only [hdata, if_true] at h
        simp only [put_ok self v0 ((Sodg.dataOf g v0).getD []) hv0self] at h
        simp only [kids_ok g v0 ν hν] at h
        have hInv1 : MInv g (updVertex self v0 (fun ν1 => ⟨ν1.edges,
            some ((Sodg.dataOf g v0).getD [])⟩)) :=
          inv_updVertex g self v0 _ hInv (fun ν1 => rfl)
        exact go_selfmerge g hwf hsf fuel ih (kidsFrom 0 ν.edges) _ v0 ((v0, v0) :: m)
          res hInv1 hM1 hv0 hks h
      | false =>
        simp only [hdata, if_false] at h
        simp only [kids_ok g v0 ν hν] at h
        exact go_selfmerge g hwf hsf fuel ih (kidsFrom 0 ν.edges) self v0 ((v0, v0) :: m)
          res hInv hM1 hv0 hks h

theorem covered_length (g self : Sodg) (left right : Nat) (s2 : Sodg)
    (m2 : List (Nat × Nat)) (hnd : (vertexIds g).Nodup)
    (h : mergeRec g (g.vertices.length + 1) self left right [] = some (.ok (s2, m2)))
    (hreach : ReachesAll g right) :
    m2.length = g.vertices.length := by
  obtain ⟨M1, M2, M3, M4, M5, M6⟩ :=
    mergeRec_spec g (g.vertices.length + 1) self left right [] s2 m2 h
  have hKnd : (m2.map Prod.fst).Nodup := by
    apply M6
    unfold keysNodup
    simp
  have hsub : ∀ x ∈ m2.map Prod.fst, x ∈ vertexIds g := by
    intro x hx
    have hkx : kIn x m2 = true := (kIn_iff_keys x m2).mpr hx
    cases M3 x hkx with
    | inl h0 => rw [kIn_nil] at h0; cases h0
    | inr hV => exact hV
  have hreach_in : ∀ v, Reach g right v → kIn v m2 = true := by
    intro v hr
    induction hr with
    | refl => exact M2
    | @step u w ν a1 h1 h2 h3 ihr =>
      refine M4 u ihr (kIn_nil u) w ?_
      simp only [targetsOf, h2]
      exact List.mem_map_of_mem Prod.snd h3
  have hall : ∀ v ∈ vertexIds g, v ∈ m2.map Prod.fst :=
    fun v hv => (kIn_iff_keys v m2).mp (hreach_in v (hreach v hv))
  have hlen := (length_eq_iff_all (m2.map Prod.fst) (vertexIds g) hKnd hnd hsub).mpr hall
  simpa [List.length_map, vertexIds] using hlen

/-- C2 (corrected): for a well-formed graph whose labels never contain
the synthesis separator, merging a clone of the graph into itself at a
root that reaches every vertex succeeds and leaves the vertex count
unchanged; every plain edge keeps its target in the destination, so the
dedup branch always reuses the twin vertex and no vertex is added. -/
theorem merge_clone_preserves_count (g : Sodg) (r : Nat) (hwf : Wf g)
    (hsf : SlashFree g) (hr : r ∈ vertexIds g) (hreach : ReachesAll g r) :
    (Sodg.merge g (Sodg.clone g) r r).map (fun h => h.vertices.length) =
      .ok g.vertices.length := by
  have hclone : Sodg.clone g = g := rfl
  rw [hclone]
  have hnn : mergeRec g (g.vertices.length + 1) g r r [] ≠ none := by
    apply mergeRec_enough
    rw [missing_nil]
  cases hres : mergeRec g (g.vertices.length + 1) g r r [] with
  | none => exact absurd hres hnn
  | some res =>
    obtain ⟨s2, m2, hok, hInv2, hM2⟩ :=
      mr_selfmerge g hwf hsf (g.vertices.length + 1) g r [] res (inv_init g hsf)
        (fun p hp => absurd hp (List.not_mem_nil p)) hr hres
    subst hok
    have hlen : m2.length = g.vertices.length :=
      covered_length g g r r s2 m2 hwf.1 hres hreach
    simp only [Sodg.merge, hres]
    rw [if_neg (fun hc => hc hlen)]
    simp only [Except.map]
    have hs2 : s2.vertices.length = g.vertices.length := by
      have h1 := congrArg List.length hInv2.1
      simpa [vertexIds, List.length_map] using h1
    rw [hs2]

/-- Graph whose plain labels collide with the synthesized convergence
labels: a self-loop labeled y on vertex 0 together with an edge labeled
y/0 from 0 to 1 and an edge labeled z from 1 to 2. -/
def gSlash : Sodg :=
  ⟨[(0, ⟨[("y", 0), ("y/0", 1)], none⟩), (1, ⟨[("z", 2)], none⟩), (2, ⟨[], none⟩)], 3⟩

/-- C2 counterexample: gSlash is a graph whose every vertex is reachable
from root 0, yet merging its clone into itself at that root succeeds and
grows the graph from 3 to 4 vertices: the convergence bind for the
self-loop overwrites the plain edge labeled y/0, the dedup lookup then
returns the wrong twin, and a fresh vertex is allocated. -/
theorem merge_clone_counterexample :
    ReachesAll gSlash 0 ∧
    (Sodg.merge gSlash (Sodg.clone gSlash) 0 0).map (fun h => h.vertices.length) =
      .ok 4 ∧
    gSlash.vertices.length = 3 ∧
    (Sodg.merge gSlash (Sodg.clone gSlash) 0 0).map (fun h => h.vertices.length) ≠
      .ok gSlash.vertices.length := by
  refine ⟨?_, by decide, by decide, by decide⟩
  intro v hv
  have h1 : Reach gSlash 0 1 :=
    @Reach.step gSlash 0 0 1 ⟨[("y", 0), ("y/0", 1)], none⟩ ("y/0") Reach.refl rfl
      (by decide)
  have h2 : Reach gSlash 0 2 :=
    @Reach.step gSlash 0 1 2 ⟨[("z", 2)], none⟩ ("z") h1 rfl (by decide)
  have hv3 : v = 0 ∨ v = 1 ∨ v = 2 := by
    have : v ∈ [0, 1, 2] := hv
    simpa using this
  rcases hv3 with hv0 | hv1 | hv2
  · subst hv0; exact Reach.refl
  · subst hv1; exact h1
  · subst hv2; exact h2

theorem merge_clone_preserves_count_witness :
    (Sodg.merge gCycle2 (Sodg.clone gCycle2) 1 1).map (fun h => h.vertices.length) =
      .ok gCycle2.vertices.length := by
  have hreach : ReachesAll gCycle2 1 := by
    intro v hv
    have h2 : Reach gCycle2 1 2 :=
      @Reach.step gCycle2 1 1 2 ⟨[("foo", 2)], none⟩ ("foo") Reach.refl rfl (by decide)
    have hv2 : v = 1 ∨ v = 2 := by
      have : v ∈ [1, 2] := hv
      simpa using this
    rcases hv2 with hv1 | hv2
    · subst hv1; exact Reach.refl
    · subst hv2; exact h2
  exact merge_clone_preserves_count gCycle2 1 (by unfold Wf; decide)
    (by unfold SlashFree; decide) (by decide) hreach
